import Mathlib

/-!
Shallow embedding of the diamond repository's `ThreadPool` / `TaskSet`
scheduler (src/util/parallel/thread_pool.h) and of the `FlatArray`
packed-array container (src/util/data_structures/flat_array.h),
together with theorems settling the specification claims.

Modelling conventions:
* The scheduler's shared state (the priority queue bank, the per-set
  counters and the stop flag) is one record `PoolState`; every code
  section that runs under the pool mutex becomes one atomic Lean
  function on `PoolState`.
* The `int64_t` / `size_t` counters only ever increase by one, so they
  are modelled as `Nat` (overflow is unreachable for the properties
  considered).
* Work item actions are opaque in the source (`std::function<void()>`);
  a `Task` is identified by its owning set id `sid` and a token `tid`,
  and executing an action is a no-op on pool state, exactly as the
  scheduler itself treats the callable.
* Blocking is made explicit: a procedure that can block (a condition
  variable wait whose predicate can never become true from the modelled
  context, or a drain loop that runs out of fuel) returns `none`;
  a normal return is `some` of the final state together with the list
  of tasks the calling context itself executed, in order.
-/

namespace ThreadPool

/-- A queued work item: `sid` is the id of the owning `TaskSet`
(the `task_set` pointer of `ThreadPool::Task`), `tid` an identity
token standing for the opaque callable `f`. -/
structure Task where
  sid : Nat
  tid : Nat
deriving DecidableEq

/-- The scheduler state shared under the pool mutex:
`queues` is `tasks_` (`std::array<std::queue<Task>, PRIORITY_COUNT>`,
front of a queue = head of the list, push = append at the tail);
`total_ sid` / `finished_ sid` are the counters of the `TaskSet`
with id `sid`; `stop` is the pool's `stop_` flag. -/
structure PoolState where
  queues : List (List Task)
  total_ : Nat → Nat
  finished_ : Nat → Nat
  stop : Bool

/-- Pointwise update of a counter map. -/
def updMap (f : Nat → Nat) (sid v : Nat) : Nat → Nat :=
  fun i => if i = sid then v else f i

/-- `ThreadPool::queue_empty`: all per-priority queues are empty. -/
def queue_empty (qs : List (List Task)) : Bool :=
  qs.all fun q => q.isEmpty

/-- The dequeue scan of `ThreadPool::run_set`:
`for (auto& q : tasks_) if (!q.empty()) { task = q.front(); q.pop(); break; }` —
scan queues from index 0 upwards, take the front of the first
non-empty one. -/
def popAny : List (List Task) → Option (Task × List (List Task))
  | [] => none
  | [] :: rest => (popAny rest).map fun p => (p.1, [] :: p.2)
  | (t :: ts) :: rest => some (t, ts :: rest)

/-- `TaskSet::finished()`: `total_ == finished_`. -/
def tsFinished (s : PoolState) (sid : Nat) : Bool :=
  s.total_ sid == s.finished_ sid

/-- `TaskSet::total()`. -/
def tsTotal (s : PoolState) (sid : Nat) : Nat :=
  s.total_ sid

/-- The condition-variable notifications a call can fire:
`setCv` is the task set's own `cv_`, `poolCv` the pool's `cv_`. -/
structure Notify where
  setCv : Bool
  poolCv : Bool
deriving DecidableEq

/-- `TaskSet::finish()`: `++finished_; if (finished()) { cv_.notify_all();
thread_pool->cv_.notify_all(); }` — returns the new state and which
condition variables were notified. -/
def finish (s : PoolState) (sid : Nat) : PoolState × Notify :=
  let s' : PoolState :=
    { s with finished_ := updMap s.finished_ sid (s.finished_ sid + 1) }
  if tsFinished s' sid then (s', ⟨true, true⟩) else (s', ⟨false, false⟩)

/-- `ThreadPool::enqueue`: under the pool mutex, throw if `stop_` is
set, otherwise `task_set.add()` (increment `total_`) and push the task
at the back of the queue of the set's priority. -/
def enqueue (s : PoolState) (sid priority tid : Nat) :
    Except String PoolState :=
  if s.stop then .error "enqueue on stopped ThreadPool"
  else .ok
    { s with
      total_ := updMap s.total_ sid (s.total_ sid + 1)
      queues := s.queues.set priority
        (s.queues.getD priority [] ++ [⟨sid, tid⟩]) }

/-- The predicate of the condition-variable wait in `run_set`:
`stop_ || !queue_empty() || (task_set && task_set->finished())`. -/
def wake_cond (s : PoolState) (target : Option Nat) : Bool :=
  s.stop || !queue_empty s.queues ||
    (match target with
     | none => false
     | some t => tsFinished s t)

/-- The return test of `run_set`:
`(stop_ && queue_empty()) || (task_set && task_set->finished())`. -/
def exit_cond (s : PoolState) (target : Option Nat) : Bool :=
  (s.stop && queue_empty s.queues) ||
    (match target with
     | none => false
     | some t => tsFinished s t)

/-- `ThreadPool::run_set` (the drain loop), fuel-indexed.  Each
iteration: block on the condition variable until `wake_cond` (in this
sequential model a wait whose predicate is false never returns:
`none`); return when `exit_cond`; otherwise pop the front of the first
non-empty queue, execute its action, and call `finish` on its owning
set.  Returns the final state and the tasks executed by this context,
in execution order. -/
def run_set : Nat → PoolState → Option Nat → Option (PoolState × List Task)
  | 0, _, _ => none
  | fuel + 1, s, target =>
    if wake_cond s target then
      if exit_cond s target then some (s, [])
      else
        match popAny s.queues with
        | none => none
        | some (t, qs') =>
          match run_set fuel (finish { s with queues := qs' } t.sid).1 target with
          | none => none
          | some (s', log) => some (s', t :: log)
    else none

/-- `TaskSet::wait()`: `cv_.wait(lock, [this]{ return finished(); })` —
a passive wait on the set's own condition variable; it returns (having
executed nothing and changed nothing) as soon as `finished()` holds,
and in this sequential model blocks (`none`) otherwise. -/
def TaskSet_wait (s : PoolState) (sid : Nat) : Option (PoolState × List Task) :=
  if tsFinished s sid then some (s, []) else none

/-- `TaskSet::run()`: `if (finished()) return; thread_pool->run_set(this);`. -/
def TaskSet_run (fuel : Nat) (s : PoolState) (sid : Nat) :
    Option (PoolState × List Task) :=
  if tsFinished s sid then some (s, [])
  else run_set fuel s (some sid)

/-- The `wait` procedure as the SPEC describes it (for refinement
comparison with the source's `TaskSet_wait`): "if already finished,
return immediately; otherwise invoke the pool's drain loop with `self`
as the target". -/
def wait_spec (fuel : Nat) (s : PoolState) (sid : Nat) :
    Option (PoolState × List Task) :=
  if tsFinished s sid then some (s, [])
  else run_set fuel s (some sid)

/-- The pool state right after `ThreadPool::ThreadPool` and the
construction of a fresh `TaskSet` for any id: both counters of every
set are `0`, the two priority queues (`PRIORITY_COUNT = 2`) are empty,
the stop flag is clear. -/
def initPool : PoolState :=
  ⟨[[], []], fun _ => 0, fun _ => 0, false⟩

/-- A pool state with one pending work item: set `0` has one
submitted and zero completed items, and the item sits in the
priority-0 queue. -/
def pendingPool : PoolState :=
  ⟨[[⟨0, 0⟩], []], updMap (fun _ => 0) 0 1, fun _ => 0, false⟩

/-- A pool whose stop flag has been set (state after `~ThreadPool`
began, queues empty). -/
def stoppedPool : PoolState :=
  ⟨[[], []], fun _ => 0, fun _ => 0, true⟩

/-- Number of still-queued tasks owned by set `sid`. -/
def countQ (sid : Nat) : List (List Task) → Nat
  | [] => 0
  | q :: rest => (q.filter fun t => t.sid == sid).length + countQ sid rest

/-- Scheduler-protocol state: the pool state plus, per set id, the
number of its items popped from the queue bank but whose `finish()`
has not yet run (items currently being executed by some worker). -/
structure SchedState where
  pool : PoolState
  inflight : Nat → Nat

/-- One observable step of the scheduler protocol, as the code
performs it: a successful `enqueue` (add + push, atomic under the
mutex), a dequeue of an item (begin of execution), the `finish()` call
that ends an execution, or the destructor setting the stop flag. -/
inductive SchedStep : SchedState → SchedState → Prop
  | enq (s : SchedState) (sid priority tid : Nat) (p : PoolState)
      (hp : priority < s.pool.queues.length)
      (h : enqueue s.pool sid priority tid = .ok p) :
      SchedStep s ⟨p, s.inflight⟩
  | deq (s : SchedState) (t : Task) (qs' : List (List Task))
      (h : popAny s.pool.queues = some (t, qs')) :
      SchedStep s
        ⟨{ s.pool with queues := qs' },
         updMap s.inflight t.sid (s.inflight t.sid + 1)⟩
  | fin (s : SchedState) (sid : Nat) (h : 0 < s.inflight sid) :
      SchedStep s
        ⟨(finish s.pool sid).1,
         updMap s.inflight sid (s.inflight sid - 1)⟩
  | halt (s : SchedState) :
      SchedStep s ⟨{ s.pool with stop := true }, s.inflight⟩

/-- The protocol's initial state: fresh pool, nothing executing. -/
def initSched : SchedState :=
  ⟨initPool, fun _ => 0⟩

/-- Reachability under the scheduler protocol. -/
def SchedReach (s : SchedState) : Prop :=
  Relation.ReflTransGen SchedStep initSched s

/-- The bookkeeping invariant tying the counters to the queue
contents: completed plus queued plus executing equals submitted. -/
def SchedInv (s : SchedState) : Prop :=
  ∀ sid, s.pool.finished_ sid + countQ sid s.pool.queues + s.inflight sid
    = s.pool.total_ sid

end ThreadPool

/-- The packed-array container `FlatArray<T>`
(src/util/data_structures/flat_array.h): `data_` holds the elements of
all groups back to back, `limits_` the group boundaries as indices into
`data_` (`limits_[i]` = start of group `i`, `limits_[i+1]` = its end;
the constructor pushes a single `0`). -/
structure FlatArray (α : Type) where
  data_ : List α
  limits_ : List Nat
deriving DecidableEq

namespace FlatArray

/-- `FlatArray()` — `limits_.push_back(0)`. -/
def mk0 (α : Type) : FlatArray α := ⟨[], [0]⟩

/-- `push_back(const T& x)` — `data_.push_back(x); ++limits_.back();`. -/
def push_back (a : FlatArray α) (x : α) : FlatArray α :=
  ⟨a.data_ ++ [x], a.limits_.dropLast ++ [a.limits_.getLastD 0 + 1]⟩

/-- `push_back(begin, end)` — `data_.insert(data_.end(), begin, end);
limits_.push_back(limits_.back() + (end - begin));`.  The iterator
range is modelled as the list `r` of the elements it denotes. -/
def push_back_range (a : FlatArray α) (r : List α) : FlatArray α :=
  ⟨a.data_ ++ r, a.limits_ ++ [a.limits_.getLastD 0 + r.length]⟩

/-- `next()` — `limits_.push_back(limits_.back());`. -/
def next (a : FlatArray α) : FlatArray α :=
  ⟨a.data_, a.limits_ ++ [a.limits_.getLastD 0]⟩

/-- `pop_back()` — `limits_.pop_back();`. -/
def pop_back (a : FlatArray α) : FlatArray α :=
  ⟨a.data_, a.limits_.dropLast⟩

/-- `clear()` — `data_.clear(); limits_.clear(); limits_.push_back(0);`. -/
def clear (_a : FlatArray α) : FlatArray α := ⟨[], [0]⟩

/-- `size()` — `limits_.size() - 1` (the number of groups). -/
def size (a : FlatArray α) : Nat := a.limits_.length - 1

/-- `data_size()` — `data_.size()` (the number of elements). -/
def data_size (a : FlatArray α) : Nat := a.data_.length

/-- `begin(i)` — `data_.cbegin() + limits_[i]`, as an index into
`data_`. -/
def beginI (a : FlatArray α) (i : Nat) : Nat := a.limits_.getD i 0

/-- `end(i)` — `data_.cbegin() + limits_[i + 1]`, as an index into
`data_`. -/
def endI (a : FlatArray α) (i : Nat) : Nat := a.limits_.getD (i + 1) 0

/-- `count(i)` — `(int64_t)(limits_[i + 1] - limits_[i])`. -/
def count (a : FlatArray α) (i : Nat) : Int :=
  (a.limits_.getD (i + 1) 0 : Int) - (a.limits_.getD i 0 : Int)

/-- The elements of group `i`: the slice of `data_` delimited by the
iterator pair `(begin(i), end(i))`. -/
def group (a : FlatArray α) (i : Nat) : List α :=
  (a.data_.drop (beginI a i)).take (endI a i - beginI a i)

/-- The container's bookkeeping invariant: the last stored limit is the
total element count.  It holds for the fresh container and is preserved
by `push_back`, `push_back_range`, `next` and `clear` (but not by
`pop_back`, which drops a limit while keeping the data). -/
def Wf (a : FlatArray α) : Prop :=
  a.limits_ ≠ [] ∧ a.limits_.getLastD 0 = a.data_.length

end FlatArray

namespace ThreadPool

/-- C6: `TaskSet::finish()` increments the completed counter by
exactly one (leaving the submitted counters and the queue bank
untouched), and it notifies all waiters on the set's own condition
variable and all waiters on the pool's global condition variable
exactly when the increment makes the set finished; otherwise it
notifies no one. -/
theorem finish_increments_and_notifies (s : PoolState) (sid : Nat) :
    (finish s sid).1.finished_ sid = s.finished_ sid + 1 ∧
    (finish s sid).1.total_ = s.total_ ∧
    (finish s sid).1.queues = s.queues ∧
    ((finish s sid).2.setCv = true ↔ tsFinished (finish s sid).1 sid = true) ∧
    ((finish s sid).2.poolCv = true ↔ tsFinished (finish s sid).1 sid = true) := by
  by_cases h : tsFinished
      { s with finished_ := updMap s.finished_ sid (s.finished_ sid + 1) } sid = true <;>
    simp [finish, h, updMap]

/-- C7: `TaskSet::run()` returns immediately, executing nothing and
leaving the state unchanged, whenever the set is already finished;
otherwise it is exactly the pool's drain loop with the set as
target. -/
theorem run_immediate_when_finished (fuel : Nat) (s : PoolState) (sid : Nat) :
    (tsFinished s sid = true → TaskSet_run fuel s sid = some (s, [])) ∧
    (tsFinished s sid = false → TaskSet_run fuel s sid = run_set fuel s (some sid)) := by
  constructor <;> intro h <;> simp [TaskSet_run, h]

/-- Witness for `run_immediate_when_finished` at the fresh pool. -/
theorem run_immediate_when_finished_witness :
    TaskSet_run 0 initPool 0 = some (initPool, []) :=
  (run_immediate_when_finished 0 initPool 0).1 rfl

/-- C9: a freshly constructed `TaskSet` (both counters zero) already
reports `finished()` and `total() == 0`, so `wait()` returns
immediately and `run()` returns without entering the drain loop. -/
theorem fresh_taskset_already_finished (sid fuel : Nat) :
    tsFinished initPool sid = true ∧
    tsTotal initPool sid = 0 ∧
    TaskSet_wait initPool sid = some (initPool, []) ∧
    TaskSet_run fuel initPool sid = some (initPool, []) := by
  refine ⟨rfl, rfl, rfl, ?_⟩
  simp [TaskSet_run, tsFinished, initPool]

/-- C2: `enqueue` on a pool whose stop flag is set fails with the
"enqueue on stopped ThreadPool" error and produces no new state; when
it succeeds, the increment of the set's submitted counter and the push
at the back of the priority queue happen together in the same atomic
(mutex-protected) update. -/
theorem enqueue_stopped_rejects (s : PoolState) (sid priority tid : Nat) :
    (s.stop = true →
      enqueue s sid priority tid = .error "enqueue on stopped ThreadPool") ∧
    (∀ p, enqueue s sid priority tid = .ok p →
      s.stop = false ∧
      p.total_ sid = s.total_ sid + 1 ∧
      p.finished_ = s.finished_ ∧
      p.queues = s.queues.set priority
        (s.queues.getD priority [] ++ [⟨sid, tid⟩])) := by
  constructor
  · intro h
    simp [enqueue, h]
  · intro p hp
    by_cases h : s.stop = true
    · simp [enqueue, h] at hp
    · simp only [Bool.not_eq_true] at h
      simp [enqueue, h] at hp
      subst hp
      simp [updMap, h]

/-- Witness for `enqueue_stopped_rejects`: on the stopped pool the
call errors; on the fresh pool it succeeds and bumps the counter. -/
theorem enqueue_stopped_rejects_witness :
    enqueue stoppedPool 0 0 0 = .error "enqueue on stopped ThreadPool" ∧
    (enqueue initPool 0 0 0 = .ok
        { initPool with
          total_ := updMap initPool.total_ 0 1
          queues := [[⟨0, 0⟩], []] } →
      initPool.stop = false) :=
  ⟨(enqueue_stopped_rejects stoppedPool 0 0 0).1 rfl,
   fun hp => ((enqueue_stopped_rejects initPool 0 0 0).2 _ hp).1⟩

/-- C1 (amended): `TaskSet::wait()` is a passive condition-variable
wait — it returns, having executed no queued work and changed no
state, exactly when `finished()` holds, and blocks otherwise; the
participation behaviour the specification describes (enter the drain
loop with the set as target) is exactly `TaskSet::run()`. -/
theorem wait_is_passive_run_is_participation :
    (∀ s sid, TaskSet_wait s sid = some (s, []) ↔ tsFinished s sid = true) ∧
    (∀ s sid, TaskSet_wait s sid = none ↔ tsFinished s sid = false) ∧
    (∀ fuel s sid, TaskSet_run fuel s sid = wait_spec fuel s sid) := by
  refine ⟨fun s sid => ?_, fun s sid => ?_, fun _ _ _ => rfl⟩
  · unfold TaskSet_wait
    split <;> simp_all
  · unfold TaskSet_wait
    split <;> simp_all

/-- The state component of `finish`: the set's completed counter is
bumped, everything else is untouched (in both notification branches). -/
theorem finish_fst (s : PoolState) (sid : Nat) :
    (finish s sid).1
      = { s with finished_ := updMap s.finished_ sid (s.finished_ sid + 1) } := by
  by_cases h : tsFinished
      { s with finished_ := updMap s.finished_ sid (s.finished_ sid + 1) } sid = true <;>
    simp [finish, h]

/-- `popAny` returns "empty" exactly when all queues are empty. -/
theorem popAny_eq_none_iff (qs : List (List Task)) :
    popAny qs = none ↔ queue_empty qs = true := by
  induction qs with
  | nil => simp [popAny, queue_empty]
  | cons q rest ih =>
    cases q with
    | nil =>
      simpa [popAny, queue_empty, Option.map_eq_none'] using ih
    | cons t ts => simp [popAny, queue_empty]

/-- The dequeue scan takes exactly the head of the concatenation of
the queues in priority order. -/
theorem popAny_flatten (qs : List (List Task)) (t : Task)
    (qs' : List (List Task)) (h : popAny qs = some (t, qs')) :
    qs.flatten = t :: qs'.flatten := by
  induction qs generalizing qs' with
  | nil => simp [popAny] at h
  | cons q rest ih =>
    cases q with
    | nil =>
      simp only [popAny, Option.map_eq_some'] at h
      obtain ⟨⟨t2, r2⟩, h1, h2⟩ := h
      simp only [Prod.mk.injEq] at h2
      obtain ⟨rfl, rfl⟩ := h2
      simpa using ih r2 h1
    | cons x ts =>
      simp only [popAny, Option.some.injEq, Prod.mk.injEq] at h
      obtain ⟨rfl, rfl⟩ := h
      simp

/-- Queues that test empty flatten to the empty list. -/
theorem queue_empty_flatten (qs : List (List Task))
    (h : queue_empty qs = true) : qs.flatten = [] := by
  induction qs with
  | nil => rfl
  | cons q rest ih =>
    simp only [queue_empty, List.all_cons, Bool.and_eq_true,
      List.isEmpty_iff] at h
    obtain ⟨rfl, h2⟩ := h
    simpa using ih h2

/-- A drain loop that returns does so with the exit test true in the
final state. -/
theorem run_set_some_exit :
    ∀ (fuel : Nat) (s : PoolState) (target : Option Nat) (p : PoolState)
      (log : List Task), run_set fuel s target = some (p, log) →
      exit_cond p target = true := by
  intro fuel
  induction fuel with
  | zero => intro s target p log h; simp [run_set] at h
  | succ n ih =>
    intro s target p log h
    rw [run_set] at h
    split at h
    · split at h
      next he =>
        simp only [Option.some.injEq, Prod.mk.injEq] at h
        obtain ⟨rfl, rfl⟩ := h
        exact he
      next he =>
        split at h
        · exact absurd h (by simp)
        next t qs' hp =>
          split at h
          · exact absurd h (by simp)
          next s2 log2 hr =>
            simp only [Option.some.injEq, Prod.mk.injEq] at h
            obtain ⟨rfl, rfl⟩ := h
            exact ih _ _ _ _ hr
    · exact absurd h (by simp)

/-- The exit test implies the wake-up test of the condition-variable
wait. -/
theorem exit_cond_wake (s : PoolState) (target : Option Nat)
    (h : exit_cond s target = true) : wake_cond s target = true := by
  cases target <;>
    simp only [exit_cond, wake_cond, Bool.or_eq_true, Bool.and_eq_true] at h ⊢ <;>
    tauto

/-- On a stopping pool with no target, the drain loop executes the
queued items in exactly priority-scan order: the concatenation of the
per-priority queues, highest priority first, each in FIFO order. -/
theorem run_set_drains :
    ∀ (fuel : Nat) (qs : List (List Task)) (tot fin : Nat → Nat),
      qs.flatten.length < fuel →
      ∃ p, run_set fuel ⟨qs, tot, fin, true⟩ none = some (p, qs.flatten) := by
  intro fuel
  induction fuel with
  | zero => intro qs tot fin h; exact absurd h (Nat.not_lt_zero _)
  | succ n ih =>
    intro qs tot fin h
    by_cases he : queue_empty qs = true
    · refine ⟨⟨qs, tot, fin, true⟩, ?_⟩
      have hw : wake_cond ⟨qs, tot, fin, true⟩ none = true := by
        simp [wake_cond]
      have hex : exit_cond ⟨qs, tot, fin, true⟩ none = true := by
        simp [exit_cond, he]
      rw [run_set, if_pos hw, if_pos hex, queue_empty_flatten qs he]
    · obtain ⟨⟨t, qs'⟩, hp⟩ : ∃ pr, popAny qs = some pr := by
        cases hpa : popAny qs with
        | none => exact absurd ((popAny_eq_none_iff qs).1 hpa) (by simp [he])
        | some pr => exact ⟨pr, rfl⟩
      have hflat := popAny_flatten qs t qs' hp
      have hlen : qs'.flatten.length < n := by
        rw [hflat] at h
        simpa using Nat.lt_of_succ_lt_succ h
      obtain ⟨p, hrun⟩ := ih qs' tot (updMap fin t.sid (fin t.sid + 1)) hlen
      refine ⟨p, ?_⟩
      have hw : wake_cond ⟨qs, tot, fin, true⟩ none = true := by
        simp [wake_cond]
      have hex : ¬exit_cond ⟨qs, tot, fin, true⟩ none = true := by
        simp [exit_cond, he]
      rw [run_set, if_pos hw, if_neg hex, hp]
      dsimp only
      rw [finish_fst]
      dsimp only
      rw [hrun]
      dsimp only
      rw [hflat]

/-- `getD` after appending one element at the back of queue `p`. -/
theorem getD_set_append (qs : List (List Task)) (p : Nat) (x : Task)
    (hp : p < qs.length) :
    (qs.set p (qs.getD p [] ++ [x])).getD p [] = qs.getD p [] ++ [x] := by
  induction qs generalizing p with
  | nil => simp at hp
  | cons q rest ih =>
    cases p with
    | zero => simp
    | succ m =>
      simp only [List.set, List.getD_cons_succ]
      exact ih m (by simpa using hp)

/-- C3: the drain loop `run_set(target)` returns exactly under two
conditions — the pool is stopping with an empty queue bank, or the
target is set and finished; a worker with no target only ever exits
via the stop condition, and when the exit condition already holds the
loop returns at once, executing nothing. -/
theorem run_set_exit_conditions :
    (∀ fuel s target p log, run_set fuel s target = some (p, log) →
        exit_cond p target = true) ∧
    (∀ fuel s p log, run_set fuel s none = some (p, log) →
        p.stop = true ∧ queue_empty p.queues = true) ∧
    (∀ fuel s t p log, run_set fuel s (some t) = some (p, log) →
        ¬(p.stop = true ∧ queue_empty p.queues = true) →
        tsFinished p t = true) ∧
    (∀ fuel s target, exit_cond s target = true →
        run_set (fuel + 1) s target = some (s, [])) := by
  refine ⟨run_set_some_exit, ?_, ?_, ?_⟩
  · intro fuel s p log h
    have := run_set_some_exit fuel s none p log h
    simpa [exit_cond, Bool.and_eq_true] using this
  · intro fuel s t p log h hns
    have := run_set_some_exit fuel s (some t) p log h
    simp only [exit_cond, Bool.or_eq_true, Bool.and_eq_true] at this
    tauto
  · intro fuel s target h
    rw [run_set, if_pos (exit_cond_wake s target h), if_pos h]

/-- Witness for `run_set_exit_conditions`: on the stopped empty pool a
target-less drain loop returns immediately, and the exit state indeed
has the stop flag set and the queue bank empty. -/
theorem run_set_exit_conditions_witness :
    run_set 1 stoppedPool none = some (stoppedPool, []) ∧
    stoppedPool.stop = true ∧ queue_empty stoppedPool.queues = true :=
  ⟨run_set_exit_conditions.2.2.2 0 stoppedPool none rfl,
   run_set_exit_conditions.2.1 1 stoppedPool stoppedPool []
     (run_set_exit_conditions.2.2.2 0 stoppedPool none rfl)⟩

/-- C4: each dequeue decision scans the priority queues from index 0
upwards and takes the front of the first non-empty queue (so a
priority-1 item is taken only when queue 0 is momentarily empty);
every dequeue takes the head of the priority-ordered concatenation of
the queues; draining a stopping pool executes all items in exactly that
order (strict priority preference, FIFO within one priority); and
`enqueue` appends at the back of its priority's queue, so FIFO order is
submission order. -/
theorem dequeue_priority_fifo :
    (∀ (t : Task) (ts q1 : List Task), popAny [t :: ts, q1] = some (t, [ts, q1])) ∧
    (∀ (t : Task) (ts : List Task), popAny [[], t :: ts] = some (t, [[], ts])) ∧
    (∀ qs, popAny qs = none ↔ queue_empty qs = true) ∧
    (∀ qs t qs', popAny qs = some (t, qs') → qs.flatten = t :: qs'.flatten) ∧
    (∀ (fuel : Nat) (qs : List (List Task)) (tot fin : Nat → Nat),
        qs.flatten.length < fuel →
        ∃ p, run_set fuel ⟨qs, tot, fin, true⟩ none = some (p, qs.flatten)) ∧
    (∀ s sid priority tid p, priority < s.queues.length →
        enqueue s sid priority tid = .ok p →
        p.queues.getD priority [] = s.queues.getD priority [] ++ [⟨sid, tid⟩]) := by
  refine ⟨fun t ts q1 => rfl, fun t ts => rfl, popAny_eq_none_iff,
    popAny_flatten, run_set_drains, ?_⟩
  intro s sid priority tid p hp h
  by_cases hstop : s.stop = true
  · simp [enqueue, hstop] at h
  · simp only [Bool.not_eq_true] at hstop
    simp only [enqueue, hstop, Bool.false_eq_true, if_false, Except.ok.injEq] at h
    subst h
    exact getD_set_append s.queues priority ⟨sid, tid⟩ hp

/-- Witness for `dequeue_priority_fifo`: a concrete two-queue bank with
two priority-0 items and one priority-1 item drains in priority-then-
FIFO order. -/
theorem dequeue_priority_fifo_witness :
    ∃ p, run_set 4
      (⟨[[⟨0, 0⟩, ⟨0, 1⟩], [⟨1, 2⟩]], fun _ => 0, fun _ => 0, true⟩ : PoolState)
      none = some (p, [⟨0, 0⟩, ⟨0, 1⟩, ⟨1, 2⟩]) :=
  dequeue_priority_fifo.2.2.2.2.1 4 [[⟨0, 0⟩, ⟨0, 1⟩], [⟨1, 2⟩]]
    (fun _ => 0) (fun _ => 0) (by decide)

/-- Dequeuing removes exactly one queued item of the popped task's
set from the queue bank. -/
theorem countQ_popAny (sid : Nat) (qs : List (List Task)) (t : Task)
    (qs' : List (List Task)) (h : popAny qs = some (t, qs')) :
    countQ sid qs = countQ sid qs' + (if t.sid = sid then 1 else 0) := by
  induction qs generalizing qs' with
  | nil => simp [popAny] at h
  | cons q rest ih =>
    cases q with
    | nil =>
      simp only [popAny, Option.map_eq_some'] at h
      obtain ⟨⟨t2, r2⟩, h1, h2⟩ := h
      simp only [Prod.mk.injEq] at h2
      obtain ⟨rfl, rfl⟩ := h2
      simp only [countQ, List.filter_nil, List.length_nil, Nat.zero_add]
      exact ih r2 h1
    | cons x ts =>
      simp only [popAny, Option.some.injEq, Prod.mk.injEq] at h
      obtain ⟨rfl, rfl⟩ := h
      by_cases hb : x.sid = sid
      · simp [countQ, List.filter_cons, hb]
        omega
      · simp [countQ, List.filter_cons, hb]

/-- Appending one item at the back of queue `pr` adds exactly one to
the count of its owning set. -/
theorem countQ_set_append (sid : Nat) (qs : List (List Task)) (pr : Nat)
    (x : Task) (hp : pr < qs.length) :
    countQ sid (qs.set pr (qs.getD pr [] ++ [x]))
      = countQ sid qs + (if x.sid = sid then 1 else 0) := by
  induction qs generalizing pr with
  | nil => simp at hp
  | cons q rest ih =>
    cases pr with
    | zero =>
      by_cases hb : x.sid = sid
      · simp [countQ, List.filter_append, List.filter_cons, hb]
        omega
      · simp [countQ, List.filter_append, List.filter_cons, hb]
    | succ m =>
      simp only [List.set, List.getD_cons_succ, countQ]
      rw [ih m (by simpa using hp)]
      omega

/-- `updMap` at the updated id. -/
theorem updMap_self (f : Nat → Nat) (sid v : Nat) : updMap f sid v sid = v := by
  simp [updMap]

/-- `updMap` away from the updated id. -/
theorem updMap_other (f : Nat → Nat) (sid v j : Nat) (h : ¬j = sid) :
    updMap f sid v j = f j := by
  simp [updMap, h]

/-- Every protocol step preserves the bookkeeping invariant. -/
theorem schedStep_inv {s s' : SchedState} (h : SchedStep s s')
    (hi : SchedInv s) : SchedInv s' := by
  cases h with
  | enq sid priority tid p hp hok =>
    intro j
    by_cases hstop : s.pool.stop = true
    · simp [enqueue, hstop] at hok
    · simp only [Bool.not_eq_true] at hstop
      simp only [enqueue, hstop, Bool.false_eq_true, if_false,
        Except.ok.injEq] at hok
      subst hok
      dsimp only
      rw [countQ_set_append j s.pool.queues priority ⟨sid, tid⟩ hp]
      have hij := hi j
      simp only [updMap]
      by_cases hj : j = sid
      · subst hj
        simp
        omega
      · have hj' : ¬(sid = j) := fun hh => hj hh.symm
        rw [if_neg hj', if_neg hj]
        omega
  | deq t qs' hpop =>
    intro j
    have hc := countQ_popAny j s.pool.queues t qs' hpop
    have hij := hi j
    dsimp only
    by_cases hj : j = t.sid
    · subst hj
      rw [updMap_self]
      rw [if_pos rfl] at hc
      omega
    · have hj' : ¬(t.sid = j) := fun hh => hj hh.symm
      rw [updMap_other _ _ _ _ hj]
      rw [if_neg hj'] at hc
      omega
  | fin sid hpos =>
    intro j
    have hij := hi j
    rw [finish_fst]
    dsimp only
    by_cases hj : j = sid
    · subst hj
      rw [updMap_self, updMap_self]
      omega
    · rw [updMap_other _ _ _ _ hj, updMap_other _ _ _ _ hj]
      omega
  | halt =>
    intro j
    simpa using hi j

/-- The invariant holds in every protocol-reachable state. -/
theorem schedReach_inv {s : SchedState} (h : SchedReach s) : SchedInv s := by
  induction h with
  | refl => intro j; simp [initSched, initPool, countQ]
  | tail _ h2 ih => exact schedStep_inv h2 ih

/-- Each protocol step only ever increases both counters. -/
theorem schedStep_mono {s s' : SchedState} (h : SchedStep s s') (sid : Nat) :
    s.pool.total_ sid ≤ s'.pool.total_ sid ∧
    s.pool.finished_ sid ≤ s'.pool.finished_ sid := by
  cases h with
  | enq sid' priority tid p hp hok =>
    by_cases hstop : s.pool.stop = true
    · simp [enqueue, hstop] at hok
    · simp only [Bool.not_eq_true] at hstop
      simp only [enqueue, hstop, Bool.false_eq_true, if_false,
        Except.ok.injEq] at hok
      subst hok
      dsimp only
      constructor
      · by_cases hj : sid = sid'
        · subst hj
          rw [updMap_self]
          omega
        · rw [updMap_other _ _ _ _ hj]
      · exact Nat.le_refl _
  | deq t qs' hpop => exact ⟨Nat.le_refl _, Nat.le_refl _⟩
  | fin sid' hpos =>
    rw [finish_fst]
    dsimp only
    refine ⟨Nat.le_refl _, ?_⟩
    by_cases hj : sid = sid'
    · subst hj
      rw [updMap_self]
      omega
    · rw [updMap_other _ _ _ _ hj]
  | halt => exact ⟨Nat.le_refl _, Nat.le_refl _⟩

/-- C5: under the scheduler protocol (submitted is bumped only by a
successful enqueue that also queues the item, completed only by the
`finish` that ends an execution of a previously dequeued item), every
reachable state satisfies `completed ≤ submitted` for every task set,
and both counters are monotone along every step. -/
theorem taskset_counter_invariant :
    (∀ s, SchedReach s → ∀ sid,
        s.pool.finished_ sid ≤ s.pool.total_ sid) ∧
    (∀ s s', SchedStep s s' → ∀ sid,
        s.pool.total_ sid ≤ s'.pool.total_ sid ∧
        s.pool.finished_ sid ≤ s'.pool.finished_ sid) := by
  constructor
  · intro s h sid
    have := schedReach_inv h sid
    omega
  · intro s s' h sid
    exact schedStep_mono h sid

/-- Witness for `taskset_counter_invariant`: the state reached from
the fresh pool by one successful enqueue satisfies the invariant
(completed 0 ≤ submitted 1). -/
theorem taskset_counter_invariant_witness :
    (⟨{ initPool with
          total_ := updMap initPool.total_ 0 1
          queues := [[⟨0, 0⟩], []] }, fun _ => 0⟩ : SchedState).pool.finished_ 0
      ≤ (⟨{ initPool with
          total_ := updMap initPool.total_ 0 1
          queues := [[⟨0, 0⟩], []] }, fun _ => 0⟩ : SchedState).pool.total_ 0 :=
  taskset_counter_invariant.1 _
    (Relation.ReflTransGen.single
      (SchedStep.enq initSched 0 0 0 _ (by decide) rfl)) 0

/-- C1 counterexample: with one pending item queued, `wait()` blocks
without executing it, whereas the spec's description of `wait` (the
drain loop with self as target) executes the item and returns — so
`wait` does not implement the described participation. -/
theorem wait_counterexample :
    TaskSet_wait pendingPool 0 = none ∧
    (wait_spec 2 pendingPool 0).map Prod.snd = some [⟨0, 0⟩] ∧
    TaskSet_wait pendingPool 0 ≠ wait_spec 2 pendingPool 0 := by
  refine ⟨rfl, rfl, fun h => ?_⟩
  exact Bool.noConfusion (show false = true from congrArg Option.isSome h)

end ThreadPool

namespace FlatArray

/-- The default is irrelevant for `getLastD` of a non-empty list. -/
theorem getLastD_irrel (l : List Nat) (h : l ≠ []) (d e : Nat) :
    l.getLastD d = l.getLastD e := by
  cases l with
  | nil => exact absurd rfl h
  | cons a m => rw [List.getLastD_cons, List.getLastD_cons]

/-- `getD` at the last position of a non-empty list is its last
element. -/
theorem getD_last (l : List Nat) (h : l ≠ []) (d : Nat) :
    l.getD (l.length - 1) d = l.getLastD d := by
  induction l with
  | nil => exact absurd rfl h
  | cons a m ih =>
    cases m with
    | nil => rfl
    | cons b k =>
      have h2 : (b :: k) ≠ [] := by simp
      have e1 : (a :: b :: k).getD ((a :: b :: k).length - 1) d
          = (b :: k).getD ((b :: k).length - 1) d := by
        simp [List.getD_cons_succ]
      rw [e1, ih h2, getLastD_irrel _ h2 d a]
      simp only [List.getLastD_cons]

/-- `getD` into `dropLast` below the last index reads the original
list. -/
theorem getD_dropLast (l : List Nat) (i : Nat) (h : i < l.length - 1) (d : Nat) :
    l.dropLast.getD i d = l.getD i d := by
  rw [List.getD_eq_getElem?_getD, List.getD_eq_getElem?_getD,
    List.getElem?_dropLast, if_pos h]

/-- C8: group and element counting of the packed-array container —
the fresh and the cleared container have no groups and no elements;
`next()` adds one empty group without touching the elements;
single-element `push_back` adds one element to the last group without
changing the group count; and `count(i)` is the length of the iterator
range `(begin(i), end(i))`. -/
theorem flat_array_size_count (α : Type) (a : FlatArray α) (x : α) :
    size (mk0 α) = 0 ∧
    data_size (mk0 α) = 0 ∧
    size (clear a) = 0 ∧
    data_size (clear a) = 0 ∧
    (a.limits_ ≠ [] →
      size (next a) = size a + 1 ∧
      data_size (next a) = data_size a ∧
      count (next a) (size a) = 0) ∧
    data_size (push_back a x) = data_size a + 1 ∧
    size (push_back a x) = size a ∧
    (0 < size a →
      count (push_back a x) (size a - 1) = count a (size a - 1) + 1) ∧
    (∀ i, count a i = (endI a i : Int) - (beginI a i : Int)) := by
  refine ⟨rfl, rfl, rfl, rfl, ?_, by simp [data_size, push_back],
    by simp [size, push_back], ?_, fun i => rfl⟩
  · intro h
    have hlen : 1 ≤ a.limits_.length := List.length_pos.mpr h
    refine ⟨by simp [size, next]; omega, rfl, ?_⟩
    have hsz : size a = a.limits_.length - 1 := rfl
    simp only [count, next]
    rw [hsz]
    rw [List.getD_append_right _ _ _ _ (by omega)]
    rw [List.getD_append _ _ _ _ (by omega)]
    rw [getD_last _ h]
    rw [show a.limits_.length - 1 + 1 - a.limits_.length = 0 from by omega]
    simp
  · intro h
    simp only [size] at h
    have hlen : 2 ≤ a.limits_.length := by omega
    have hne : a.limits_ ≠ [] := by
      intro hh
      rw [hh] at hlen
      simp at hlen
    simp only [count, push_back]
    rw [show size a - 1 + 1 = a.limits_.length - 1 from by simp [size]; omega]
    rw [show size a - 1 = a.limits_.length - 2 from by simp [size]; omega]
    rw [List.getD_append_right _ _ _ _ (by rw [List.length_dropLast])]
    rw [List.getD_append _ _ _ _ (by rw [List.length_dropLast]; omega)]
    rw [getD_dropLast _ _ (by omega)]
    rw [List.length_dropLast]
    rw [show a.limits_.length - 1 - (a.limits_.length - 1) = 0 from by omega]
    rw [getD_last _ hne]
    simp only [List.getD_cons_zero]
    push_cast
    ring

/-- C10 (amended): the range overload `push_back(begin, end)` always
starts a new group: it adds one group and `end − begin` elements, and
— provided the container's bookkeeping invariant holds (last limit =
element count, as in every state not produced by `pop_back`) — the new
last group is exactly the appended range; single-element `push_back`
leaves the group count unchanged by contrast. -/
theorem push_back_range_new_group (α : Type) (a : FlatArray α)
    (r : List α) (x : α) :
    (a.limits_ ≠ [] → size (push_back_range a r) = size a + 1) ∧
    data_size (push_back_range a r) = data_size a + r.length ∧
    (Wf a → group (push_back_range a r) (size a) = r) ∧
    size (push_back a x) = size a := by
  refine ⟨?_, by simp [data_size, push_back_range], ?_,
    by simp [size, push_back]⟩
  · intro h
    have hlen : 1 ≤ a.limits_.length := List.length_pos.mpr h
    simp [size, push_back_range]
    omega
  · rintro ⟨h1, h2⟩
    have hlen : 1 ≤ a.limits_.length := List.length_pos.mpr h1
    simp only [group, beginI, endI, push_back_range, size]
    rw [List.getD_append a.limits_ [a.limits_.getLastD 0 + r.length] 0
      (a.limits_.length - 1) (by omega)]
    rw [show a.limits_.length - 1 + 1 = a.limits_.length from by omega]
    rw [List.getD_append_right a.limits_ [a.limits_.getLastD 0 + r.length] 0
      a.limits_.length (by omega)]
    rw [show a.limits_.length - a.limits_.length = 0 from by omega]
    rw [getD_last _ h1, h2]
    simp only [List.getD_cons_zero]
    rw [List.drop_left]
    rw [show a.data_.length + r.length - a.data_.length = r.length from by omega]
    exact List.take_length r

/-- Witness for `flat_array_size_count` on the one-group, one-element
container `{data = [5], limits = [0, 1]}`. -/
theorem flat_array_size_count_witness :
    count (next (⟨[5], [0, 1]⟩ : FlatArray Nat)) 1 = 0 ∧
    count (push_back (⟨[5], [0, 1]⟩ : FlatArray Nat) 7) 0
      = count (⟨[5], [0, 1]⟩ : FlatArray Nat) 0 + 1 :=
  ⟨((flat_array_size_count Nat ⟨[5], [0, 1]⟩ 7).2.2.2.2.1 (by decide)).2.2,
   (flat_array_size_count Nat ⟨[5], [0, 1]⟩ 7).2.2.2.2.2.2.2.1 (by decide)⟩

/-- Witness for `push_back_range_new_group` on the same container. -/
theorem push_back_range_new_group_witness :
    group (push_back_range (⟨[5], [0, 1]⟩ : FlatArray Nat) [8, 9]) 1 = [8, 9] ∧
    size (push_back_range (⟨[5], [0, 1]⟩ : FlatArray Nat) [8, 9]) = 2 :=
  ⟨(push_back_range_new_group Nat ⟨[5], [0, 1]⟩ [8, 9] 0).2.2.1
      ⟨by decide, by decide⟩,
   (push_back_range_new_group Nat ⟨[5], [0, 1]⟩ [8, 9] 0).1 (by decide)⟩

/-- C10 counterexample: in the state reached from the fresh container
by `next(); push_back(1); pop_back()` (a state whose last limit no
longer equals the element count), the range `push_back([2])` creates a
last group that does NOT equal the appended range. -/
theorem push_back_range_counterexample :
    group
        (push_back_range
          (pop_back (push_back (next (mk0 Nat)) 1)) [2])
        (size (pop_back (push_back (next (mk0 Nat)) 1))) ≠ [2] := by
  decide

end FlatArray
